import Mathlib

/-!
Verification development for the internetconsultatie repository
(`internetconsultatie/internetconsultatie.py`).

The core of the repository is a near-duplicate clustering engine over
downloaded consultation responses: n-gram ("shingle") extraction
(`get_ngrams`), pairwise Jaccard similarity (`jaccard_similarity`),
threshold-based edge construction and connected-component cluster
assignment (`add_components`), plus a resumable page-by-page crawl
(`download_responses`).  This file embeds those functions shallowly in
Lean and proves / refutes the specification claims about them.
-/

/-- An n-gram: a contiguous tuple of tokens, modelled as a list of strings
(Python tuples of words). -/
abbrev NGram := List String

/-- Token accumulator for whitespace splitting.  `tokensAux cs acc` walks the
character list `cs` with `acc` holding the (reversed) current token; whitespace
ends the current token, exactly like Python's `str.split()` with no
arguments (runs of whitespace separate tokens, no empty tokens). -/
def tokensAux : List Char → List Char → List (List Char)
  | [], acc => if acc = [] then [] else [acc.reverse]
  | c :: cs, acc =>
    if c.isWhitespace then
      (if acc = [] then tokensAux cs [] else acc.reverse :: tokensAux cs [])
    else tokensAux cs (c :: acc)

/-- Embedding of Python `txt.split()` (no arguments): split on runs of
whitespace, dropping empty tokens. -/
def pySplit (s : String) : List String :=
  (tokensAux s.data []).map (fun l => String.mk l)

/-- Embedding of `nltk.ngrams(tokens, n)` collected into a list: the sliding
windows of length `n` (stride 1) over `tokens`; empty when fewer than `n`
tokens are present (nltk's generator yields nothing in that case). -/
def windows (tokens : List String) (n : Nat) : List NGram :=
  if n = 0 then []
  else (List.range (tokens.length + 1 - n)).map (fun i => (tokens.drop i).take n)

/-- Embedding of `set(ngrams(tokens, n))`: the set of sliding windows. -/
def ngramSet (tokens : List String) (n : Nat) : Finset NGram :=
  (windows tokens n).toFinset

/-- Embedding of `get_ngrams(text, text_attachment, n)` (lines 117-125):
`txt = text_attachment if pd.notna(text_attachment) else text`; returns
`None` when `txt` is NA or the empty string, else `set(ngrams(txt.split(), n))`.
Optional strings model NA values. -/
def get_ngrams (text text_attachment : Option String) (n : Nat) :
    Option (Finset NGram) :=
  let txt := if text_attachment.isSome then text_attachment else text
  match txt with
  | none => none
  | some t => if t = "" then none else some (ngramSet (pySplit t) n)

/-- Embedding of `jaccard_similarity(ngrams1, ngrams2)` (lines 128-136):
`None` when either argument is falsy (Python `None` or the empty set), else
`len(intersection) / len(union)` as an exact rational (`mkRat a b` is the
rational `a / b`, see `mkRat_card_eq_div`), with the source's
(unreachable) `union == 0` guard kept. -/
def jaccard_similarity : Option (Finset NGram) → Option (Finset NGram) → Option ℚ
  | some s, some t =>
    if s = ∅ ∨ t = ∅ then none
    else if (s ∪ t).card = 0 then none
    else some (mkRat ((s ∩ t).card : Int) ((s ∪ t).card))
  | none, _ => none
  | some _, none => none

/-- The rational produced by `jaccard_similarity` is the division
`|s ∩ t| / |s ∪ t|` of the source. -/
lemma mkRat_card_eq_div (a b : Nat) :
    mkRat (a : Int) b = ((a : ℚ) / (b : ℚ)) := by
  rw [Rat.mkRat_eq_divInt, Rat.divInt_eq_div]
  norm_num

/-- The similarity test of the edge loop: `if not similarity: continue`
(skipping `None` and `0.0`, both falsy in Python); then
`if similarity >= threshold`. -/
def simPasses (threshold : ℚ) : Option ℚ → Bool
  | none => false
  | some q => if q = 0 then false else decide (threshold ≤ q)

/-- The per-pair test of the edge loop in `add_components` (lines 157-161):
`similarity = jaccard_similarity(...)`, then the falsy-skip and threshold
comparison of `simPasses`. -/
def edgeAt (g1 g2 : Option (Finset NGram)) (threshold : ℚ) : Bool :=
  simPasses threshold (jaccard_similarity g1 g2)

/-- A graph edge between record indices. -/
abbrev Edge := Nat × Nat

/-- Embedding of the edge-collection double loop of `add_components`
(lines 152-161): for each `i`, for each `j` with `j > i`, append `(i, j)`
when the pair passes `edgeAt`. -/
def buildEdges (ngs : List (Option (Finset NGram))) (threshold : ℚ) :
    List Edge :=
  (List.range ngs.length).flatMap (fun i =>
    (List.range ngs.length).filterMap (fun j =>
      if i < j ∧ edgeAt (ngs.getD i none) (ngs.getD j none) threshold = true
      then some (i, j) else none))

/-- Undirected reachability through an edge list: the
reflexive-transitive closure of "some edge joins the two indices", i.e.
connectivity by a path of edges — the notion underlying
`networkx.connected_components` in `add_components` (lines 162-166). -/
inductive Reach (edges : List Edge) : Nat → Nat → Prop
  | refl (v : Nat) : Reach edges v v
  | tail {u v w : Nat} :
      Reach edges u v → ((v, w) ∈ edges ∨ (w, v) ∈ edges) → Reach edges u w

/-- Nodes an edge `e` contributes adjacent to the set `s`. -/
def touches (s : Finset Nat) (e : Edge) : Finset Nat :=
  (if e.1 ∈ s then {e.2} else ∅) ∪ (if e.2 ∈ s then {e.1} else ∅)

/-- All nodes adjacent (via some edge) to the set `s`. -/
def nbrs (edges : List Edge) (s : Finset Nat) : Finset Nat :=
  edges.foldr (fun e acc => touches s e ∪ acc) ∅

/-- One breadth-first expansion of a node set along the edge list. -/
def gstep (edges : List Edge) (s : Finset Nat) : Finset Nat :=
  s ∪ nbrs edges s

/-- The set of nodes reachable from `v`: expand `{v}` along the edges
enough times to saturate (`2 * edges.length + 1` bounds the number of
distinct nodes, so the expansion has reached its fixpoint). -/
def reachSet (edges : List Edge) (v : Nat) : Finset Nat :=
  (gstep edges)^[2 * edges.length + 1] {v}

/-- The endpoints of the edges, as a finite set. -/
def nodesFinset (edges : List Edge) : Finset Nat :=
  edges.foldr (fun e acc => insert e.1 (insert e.2 acc)) ∅

/-- Keep the first occurrence of each element (`networkx` node insertion
order deduplication). -/
def dedupFirst : List Nat → List Nat
  | [] => []
  | a :: l => a :: (dedupFirst l).filter (fun x => x ≠ a)

/-- The nodes of the graph built by `G.add_edges_from(edges)`, in networkx
insertion order: each edge adds its two endpoints if not yet present. -/
def nodesList (edges : List Edge) : List Nat :=
  dedupFirst (edges.flatMap (fun e => [e.1, e.2]))

/-- Decidable connectivity test between two node indices. -/
def connB (edges : List Edge) (u v : Nat) : Bool :=
  decide (v ∈ reachSet edges u)

/-- The representative of `v`'s connected component: the first node, in
insertion order, connected to `v`; `none` when `v` is not a node of the
graph. -/
def repOf (edges : List Edge) (v : Nat) : Option Nat :=
  (nodesList edges).find? (fun u => connB edges u v)

/-- The component representatives in discovery order: walking the node
list in insertion order, the distinct representatives appear in exactly
the order `networkx.connected_components` yields the components. -/
def compReps (edges : List Edge) : List Nat :=
  dedupFirst ((nodesList edges).filterMap (repOf edges))

/-- The cluster id `enumerate(nx.connected_components(G))` assigns to node
`v`: the discovery index of `v`'s component, `none` when `v` is not in the
graph (`df.loc[j, 'component']` is then never assigned and stays `None`). -/
def clusterOf (edges : List Edge) (v : Nat) : Option Nat :=
  (repOf edges v).map (fun r => (compReps edges).indexOf r)

/-- One dataframe row (one response record).  `text` is the inline text
column, `attachment` the attachment-id column, `text_attachment` the
extracted attachment text, `component` the cluster id column; `extra`
holds the values of all remaining (opaque) columns.  `Option` models
pandas NA values. -/
structure Row where
  text : Option String
  attachment : Option String
  text_attachment : Option String
  component : Option Nat
  extra : List (String × String)
deriving DecidableEq

instance : Inhabited Row := ⟨⟨none, none, none, none, []⟩⟩

/-- A dataframe: the rows plus whether the `text_attachment` column is
present (`'text_attachment' in df.columns`). -/
structure DataFrame where
  rows : List Row
  hasTextAttachment : Bool
deriving DecidableEq

/-- Embedding of `extract_text(df, dir_attachments)` (lines 101-114): set
`text_attachment` to `None`, then for every row whose `attachment` is
present and non-empty store the extraction result (`extractFn` models
`textract.process`, returning `none` on failure).  All other columns are
untouched. -/
def extract_text (extractFn : String → Option String) (rows : List Row) :
    List Row :=
  rows.map (fun r =>
    { r with
      text_attachment :=
        match r.attachment with
        | some a => if a = "" then none else extractFn a
        | none => none })

/-- The rows over which `add_components` (lines 139-151) computes n-grams:
`df['component'] = None`, then `extract_text` when the `text_attachment`
column is absent. -/
def pipelineRows (extractFn : String → Option String) (df : DataFrame) :
    List Row :=
  let rows0 := df.rows.map (fun r => { r with component := none })
  if df.hasTextAttachment then rows0 else extract_text extractFn rows0

/-- The edge list `add_components` builds (lines 147-161): n-grams from
`zip(df.text, df.text_attachment)`, then the thresholded pairwise scan. -/
def pipelineEdges (extractFn : String → Option String) (df : DataFrame)
    (n : Nat) (threshold : ℚ) : List Edge :=
  buildEdges
    ((pipelineRows extractFn df).map
      (fun r => get_ngrams r.text r.text_attachment n)) threshold

/-- Embedding of `add_components(df, n, threshold, dir_attachments)`
(lines 139-167).  The final `component` of row `j` composes
`df['component'] = None` with the selective
`df.loc[j, 'component'] = i` assignments over
`enumerate(nx.connected_components(G))`: `clusterOf` is exactly that
assignment (`none` for rows in no component of `G`). -/
def add_components (extractFn : String → Option String) (df : DataFrame)
    (n : Nat) (threshold : ℚ) : DataFrame :=
  { rows :=
      (pipelineRows extractFn df).enum.map
        (fun p =>
          { p.2 with
            component := clusterOf (pipelineEdges extractFn df n threshold) p.1 }),
    hasTextAttachment := true }

/-- The body of the response crawl loop of `download_responses`
(lines 205-237), one iteration per fetched page: the page is fetched
first, then `page += 1` and the loop breaks when `page > max_page`
(a do-while on the page counter).  Returns the list of fetched page
numbers in order. -/
def crawlAux (maxPage page : Nat) : List Nat :=
  page ::
    (if h : maxPage < page + 1 then []
     else crawlAux maxPage (page + 1))
termination_by maxPage + 1 - page
decreasing_by simp_wf; omega

/-- The pages fetched by the response crawl loop: it starts at `page = 1`
and stops once the next page index would exceed `max_page` (determined
from the first page's pagination links). -/
def crawlPages (maxPage : Nat) : List Nat :=
  crawlAux maxPage 1

/-- Embedding of the record accumulation of `download_responses`
(lines 198-223): `pages p` is the list of response identifiers (urls)
listed on page `p`; `done` the identifiers loaded from the prior saved
state; `acc` the records loaded from the prior state.  Each fetched page
appends its urls not in `done` (`if url not in done`); `done` is never
extended during the run. -/
def collectResponses (pages : Nat → List String) (maxPage : Nat)
    (done acc : List String) : List String :=
  (crawlPages maxPage).foldl
    (fun resp p => resp ++ (pages p).filter (fun u => decide (¬ u ∈ done)))
    acc

lemma mem_windows {tokens : List String} {n : Nat} (hn : 1 ≤ n) {w : NGram} :
    w ∈ windows tokens n ↔
      ∃ i, i + n ≤ tokens.length ∧ w = (tokens.drop i).take n := by
  unfold windows
  rw [if_neg (by omega)]
  simp only [List.mem_map, List.mem_range]
  constructor
  · rintro ⟨i, hi, rfl⟩
    exact ⟨i, by omega, rfl⟩
  · rintro ⟨i, hi, rfl⟩
    exact ⟨i, by omega, rfl⟩

lemma mem_ngramSet {tokens : List String} {n : Nat} (hn : 1 ≤ n) {w : NGram} :
    w ∈ ngramSet tokens n ↔
      ∃ i, i + n ≤ tokens.length ∧ w = (tokens.drop i).take n := by
  rw [ngramSet, List.mem_toFinset, mem_windows hn]

lemma ngramSet_eq_empty_of_short {tokens : List String} {n : Nat}
    (hn : 1 ≤ n) (h : tokens.length < n) : ngramSet tokens n = ∅ := by
  ext w
  rw [mem_ngramSet hn]
  simp only [Finset.not_mem_empty, iff_false]
  rintro ⟨i, hi, -⟩
  omega

lemma union_card_pos {s t : Finset NGram} (hs : s ≠ ∅) : 0 < (s ∪ t).card := by
  rcases Finset.nonempty_iff_ne_empty.mpr hs with ⟨x, hx⟩
  exact Finset.card_pos.mpr ⟨x, Finset.mem_union_left _ hx⟩

lemma jaccard_some_iff {a b : Option (Finset NGram)} {q : ℚ} :
    jaccard_similarity a b = some q ↔
      ∃ s t, a = some s ∧ b = some t ∧ s ≠ ∅ ∧ t ≠ ∅ ∧
        q = ((s ∩ t).card : ℚ) / ((s ∪ t).card : ℚ) := by
  cases a with
  | none => simp [jaccard_similarity]
  | some s =>
    cases b with
    | none => simp [jaccard_similarity]
    | some t =>
      simp only [jaccard_similarity, Option.some.injEq]
      constructor
      · intro h
        split_ifs at h with h1 h2
        push_neg at h1
        injection h with h
        exact ⟨s, t, rfl, rfl, h1.1, h1.2, by rw [← h, mkRat_card_eq_div]⟩
      · rintro ⟨s', t', hs', ht', hs, ht, rfl⟩
        cases hs'
        cases ht'
        rw [if_neg (by tauto),
          if_neg (by have := union_card_pos (t := t) hs; omega)]
        rw [mkRat_card_eq_div]

lemma jaccard_none_of_degenerate {a b : Option (Finset NGram)}
    (h : a = none ∨ b = none ∨ a = some ∅ ∨ b = some ∅) :
    jaccard_similarity a b = none := by
  cases a with
  | none => cases b <;> simp [jaccard_similarity]
  | some s =>
    cases b with
    | none => simp [jaccard_similarity]
    | some t =>
      simp only [jaccard_similarity]
      rcases h with h | h | h | h
      · cases h
      · cases h
      · rw [if_pos (Or.inl (Option.some.inj h))]
      · rw [if_pos (Or.inr (Option.some.inj h))]

lemma jaccard_range {a b : Option (Finset NGram)} {q : ℚ}
    (h : jaccard_similarity a b = some q) : 0 ≤ q ∧ q ≤ 1 := by
  rcases jaccard_some_iff.mp h with ⟨s, t, -, -, hs, -, rfl⟩
  have hpos : (0 : ℚ) < ((s ∪ t).card : ℚ) := by
    exact_mod_cast union_card_pos (t := t) hs
  constructor
  · exact div_nonneg (by positivity) (le_of_lt hpos)
  · rw [div_le_one hpos]
    exact_mod_cast Finset.card_le_card (Finset.inter_subset_union)

lemma edgeAt_true_iff {g1 g2 : Option (Finset NGram)} {t : ℚ} :
    edgeAt g1 g2 t = true ↔
      ∃ q, jaccard_similarity g1 g2 = some q ∧ q ≠ 0 ∧ t ≤ q := by
  rw [edgeAt]
  cases h : jaccard_similarity g1 g2 with
  | none => simp [simPasses]
  | some q =>
    simp only [simPasses, Option.some.injEq]
    split_ifs with h0
    · simp only [Bool.false_eq_true, false_iff, not_exists]
      rintro q' ⟨rfl, h0', -⟩
      exact h0' h0
    · simp only [decide_eq_true_eq]
      constructor
      · intro ht
        exact ⟨q, rfl, h0, ht⟩
      · rintro ⟨q', ⟨rfl, -, ht'⟩⟩
        exact ht'

lemma mem_buildEdges {ngs : List (Option (Finset NGram))} {t : ℚ}
    {i j : Nat} :
    (i, j) ∈ buildEdges ngs t ↔
      j < ngs.length ∧ i < j ∧
        edgeAt (ngs.getD i none) (ngs.getD j none) t = true := by
  rw [buildEdges]
  simp only [List.mem_flatMap, List.mem_filterMap, List.mem_range,
    Option.ite_none_right_eq_some, Option.some.injEq, Prod.mk.injEq]
  constructor
  · rintro ⟨i', hi', j', hj', ⟨hij, he⟩, rfl, rfl⟩
    exact ⟨hj', hij, he⟩
  · rintro ⟨hj, hij, he⟩
    exact ⟨i, by omega, j, hj, ⟨hij, he⟩, rfl, rfl⟩

lemma buildEdges_mem_lt {ngs : List (Option (Finset NGram))} {t : ℚ}
    {e : Edge} (he : e ∈ buildEdges ngs t) : e.1 < e.2 ∧ e.2 < ngs.length := by
  obtain ⟨i, j⟩ := e
  rcases mem_buildEdges.mp he with ⟨hj, hij, -⟩
  exact ⟨hij, hj⟩

lemma buildEdges_nodup (ngs : List (Option (Finset NGram))) (t : ℚ) :
    (buildEdges ngs t).Nodup := by
  rw [buildEdges]
  rw [List.nodup_flatMap]
  constructor
  · intro i hi
    apply List.Nodup.filterMap ?_ (List.nodup_range _)
    intro j j' p hp hp'
    simp only [Option.mem_def, Option.ite_none_right_eq_some,
      Option.some.injEq] at hp hp'
    exact congrArg Prod.snd (hp.2.trans hp'.2.symm)
  · have : (List.range ngs.length).Pairwise (· ≠ ·) :=
      (List.pairwise_lt_range _).imp (fun h => Nat.ne_of_lt h)
    apply this.imp
    intro a b hab
    intro p hp hp'
    simp only [List.mem_filterMap, List.mem_range] at hp hp'
    rcases hp with ⟨j, -, hj⟩
    rcases hp' with ⟨j', -, hj'⟩
    simp only [Option.ite_none_right_eq_some, Option.some.injEq] at hj hj'
    exact hab (congrArg Prod.fst (hj.2.trans hj'.2.symm))

lemma mem_touches {s : Finset Nat} {e : Edge} {a : Nat} :
    a ∈ touches s e ↔ (e.1 ∈ s ∧ a = e.2) ∨ (e.2 ∈ s ∧ a = e.1) := by
  rw [touches]
  split_ifs with h1 h2 <;> simp_all [Finset.mem_union]

lemma mem_nbrs {edges : List Edge} {s : Finset Nat} {a : Nat} :
    a ∈ nbrs edges s ↔ ∃ e ∈ edges, a ∈ touches s e := by
  induction edges with
  | nil => simp [nbrs]
  | cons e es ih =>
    have h : nbrs (e :: es) s = touches s e ∪ nbrs es s := rfl
    rw [h, Finset.mem_union, ih]
    constructor
    · rintro (ha | ⟨e', he', ha⟩)
      · exact ⟨e, List.mem_cons_self .., ha⟩
      · exact ⟨e', List.mem_cons_of_mem _ he', ha⟩
    · rintro ⟨e', he', ha⟩
      rcases List.mem_cons.mp he' with rfl | he'
      · exact Or.inl ha
      · exact Or.inr ⟨e', he', ha⟩

lemma subset_gstep (edges : List Edge) (s : Finset Nat) : s ⊆ gstep edges s :=
  Finset.subset_union_left

lemma iterate_fixed_point {f : Finset Nat → Finset Nat} {s : Finset Nat}
    (h : f s = s) : ∀ m, f^[m] s = s := by
  intro m
  induction m with
  | zero => rfl
  | succ m ih => rw [Function.iterate_succ_apply', ih, h]

lemma iterate_subset_iterate (edges : List Edge) (v : Nat) {k k' : Nat}
    (h : k ≤ k') : (gstep edges)^[k] {v} ⊆ (gstep edges)^[k'] {v} := by
  induction k' with
  | zero =>
    have hk : k = 0 := by omega
    subst hk
    exact subset_rfl
  | succ k' ih =>
    by_cases hk : k = k' + 1
    · subst hk
      exact subset_rfl
    · have hk' : k ≤ k' := by omega
      refine (ih hk').trans ?_
      rw [Function.iterate_succ_apply']
      exact subset_gstep ..

lemma reach_of_mem_iterate (edges : List Edge) (v : Nat) :
    ∀ k a, a ∈ (gstep edges)^[k] {v} → Reach edges v a := by
  intro k
  induction k with
  | zero =>
    intro a ha
    rw [Function.iterate_zero_apply, Finset.mem_singleton] at ha
    subst ha
    exact Reach.refl _
  | succ k ih =>
    intro a ha
    rw [Function.iterate_succ_apply', gstep, Finset.mem_union] at ha
    rcases ha with ha | ha
    · exact ih a ha
    · rcases mem_nbrs.mp ha with ⟨e, he, ht⟩
      rcases mem_touches.mp ht with ⟨h1, rfl⟩ | ⟨h2, rfl⟩
      · exact Reach.tail (ih e.1 h1) (Or.inl he)
      · exact Reach.tail (ih e.2 h2) (Or.inr he)

lemma mem_of_reach_of_fixed {edges : List Edge} {s : Finset Nat}
    (hfix : gstep edges s = s) {u a : Nat} (hu : u ∈ s)
    (h : Reach edges u a) : a ∈ s := by
  induction h with
  | refl => exact hu
  | tail h1 h2 ih =>
    rw [← hfix, gstep, Finset.mem_union]
    right
    rcases h2 with h2 | h2
    · exact mem_nbrs.mpr ⟨_, h2, mem_touches.mpr (Or.inl ⟨ih, rfl⟩)⟩
    · exact mem_nbrs.mpr ⟨_, h2, mem_touches.mpr (Or.inr ⟨ih, rfl⟩)⟩

lemma mem_nodesFinset {edges : List Edge} {a : Nat} :
    a ∈ nodesFinset edges ↔ ∃ e ∈ edges, a = e.1 ∨ a = e.2 := by
  induction edges with
  | nil => simp [nodesFinset]
  | cons e es ih =>
    have h : nodesFinset (e :: es) = insert e.1 (insert e.2 (nodesFinset es)) :=
      rfl
    rw [h]
    simp only [Finset.mem_insert, ih]
    constructor
    · rintro (rfl | rfl | ⟨e', he', h'⟩)
      · exact ⟨e, List.mem_cons_self .., Or.inl rfl⟩
      · exact ⟨e, List.mem_cons_self .., Or.inr rfl⟩
      · exact ⟨e', List.mem_cons_of_mem _ he', h'⟩
    · rintro ⟨e', he', h'⟩
      rcases List.mem_cons.mp he' with rfl | he'
      · rcases h' with rfl | rfl
        · exact Or.inl rfl
        · exact Or.inr (Or.inl rfl)
      · exact Or.inr (Or.inr ⟨e', he', h'⟩)

lemma nodesFinset_card_le (edges : List Edge) :
    (nodesFinset edges).card ≤ 2 * edges.length := by
  induction edges with
  | nil => simp [nodesFinset]
  | cons e es ih =>
    have h : nodesFinset (e :: es) = insert e.1 (insert e.2 (nodesFinset es)) :=
      rfl
    rw [h]
    have h1 := Finset.card_insert_le e.1 (insert e.2 (nodesFinset es))
    have h2 := Finset.card_insert_le e.2 (nodesFinset es)
    simp only [List.length_cons]
    omega

lemma nbrs_subset_nodesFinset (edges : List Edge) (s : Finset Nat) :
    nbrs edges s ⊆ nodesFinset edges := by
  intro a ha
  rcases mem_nbrs.mp ha with ⟨e, he, ht⟩
  rcases mem_touches.mp ht with ⟨-, rfl⟩ | ⟨-, rfl⟩
  · exact mem_nodesFinset.mpr ⟨e, he, Or.inr rfl⟩
  · exact mem_nodesFinset.mpr ⟨e, he, Or.inl rfl⟩

lemma iterate_subset_insert_nodes (edges : List Edge) (v : Nat) :
    ∀ k, (gstep edges)^[k] {v} ⊆ insert v (nodesFinset edges) := by
  intro k
  induction k with
  | zero =>
    rw [Function.iterate_zero_apply]
    intro a ha
    rw [Finset.mem_singleton] at ha
    subst ha
    exact Finset.mem_insert_self ..
  | succ k ih =>
    rw [Function.iterate_succ_apply', gstep]
    apply Finset.union_subset ih
    exact (nbrs_subset_nodesFinset ..).trans (Finset.subset_insert ..)

lemma iterate_growth (edges : List Edge) (v : Nat) :
    ∀ k, (∃ j, j ≤ k ∧
        gstep edges ((gstep edges)^[j] {v}) = (gstep edges)^[j] {v})
      ∨ k + 1 ≤ ((gstep edges)^[k] {v}).card := by
  intro k
  induction k with
  | zero =>
    right
    simp
  | succ k ih =>
    rcases ih with ⟨j, hj, hfix⟩ | hcard
    · exact Or.inl ⟨j, by omega, hfix⟩
    · by_cases hfix :
        gstep edges ((gstep edges)^[k] {v}) = (gstep edges)^[k] {v}
      · exact Or.inl ⟨k, by omega, hfix⟩
      · right
        have hsub : (gstep edges)^[k] {v} ⊂ (gstep edges)^[k + 1] {v} := by
          rw [Function.iterate_succ_apply']
          exact Finset.ssubset_iff_subset_ne.mpr
            ⟨subset_gstep .., fun h => hfix h.symm⟩
        have := Finset.card_lt_card hsub
        omega

lemma gstep_reachSet_fixed (edges : List Edge) (v : Nat) :
    gstep edges (reachSet edges v) = reachSet edges v := by
  rw [reachSet]
  rcases iterate_growth edges v (2 * edges.length + 1) with ⟨j, hj, hfix⟩ | hcard
  · have hiter : (gstep edges)^[2 * edges.length + 1] {v} =
        (gstep edges)^[j] {v} := by
      rw [show 2 * edges.length + 1 = (2 * edges.length + 1 - j) + j by omega,
        Function.iterate_add_apply]
      exact iterate_fixed_point hfix _
    rw [hiter]
    exact hfix
  · exfalso
    have h1 := Finset.card_le_card (iterate_subset_insert_nodes edges v
      (2 * edges.length + 1))
    have h2 := Finset.card_insert_le v (nodesFinset edges)
    have h3 := nodesFinset_card_le edges
    omega

lemma mem_reachSet_iff {edges : List Edge} {v a : Nat} :
    a ∈ reachSet edges v ↔ Reach edges v a := by
  constructor
  · exact reach_of_mem_iterate edges v _ a
  · intro h
    have hv : v ∈ reachSet edges v := by
      rw [reachSet]
      refine iterate_subset_iterate edges v (Nat.zero_le _) ?_
      rw [Function.iterate_zero_apply, Finset.mem_singleton]
    exact mem_of_reach_of_fixed (gstep_reachSet_fixed edges v) hv h

lemma reach_trans {edges : List Edge} {u v w : Nat}
    (h1 : Reach edges u v) (h2 : Reach edges v w) : Reach edges u w := by
  induction h2 with
  | refl => exact h1
  | tail h2' hadj ih => exact Reach.tail ih hadj

lemma reach_symm {edges : List Edge} {u v : Nat} (h : Reach edges u v) :
    Reach edges v u := by
  induction h with
  | refl => exact Reach.refl _
  | tail h1 hadj ih =>
    exact reach_trans (Reach.tail (Reach.refl _) hadj.symm) ih

lemma mem_dedupFirst {l : List Nat} {a : Nat} : a ∈ dedupFirst l ↔ a ∈ l := by
  induction l with
  | nil => simp [dedupFirst]
  | cons b l ih =>
    rw [dedupFirst]
    simp only [List.mem_cons]
    constructor
    · rintro (rfl | h)
      · exact Or.inl rfl
      · exact Or.inr (ih.mp (List.mem_of_mem_filter h))
    · rintro (rfl | h)
      · exact Or.inl rfl
      · by_cases hab : a = b
        · exact Or.inl hab
        · refine Or.inr (List.mem_filter.mpr ⟨ih.mpr h, ?_⟩)
          simp [hab]

lemma mem_nodesList {edges : List Edge} {a : Nat} :
    a ∈ nodesList edges ↔ ∃ e ∈ edges, a = e.1 ∨ a = e.2 := by
  rw [nodesList, mem_dedupFirst]
  simp only [List.mem_flatMap, List.mem_cons, List.mem_singleton]
  constructor
  · rintro ⟨e, he, rfl | rfl | h⟩
    · exact ⟨e, he, Or.inl rfl⟩
    · exact ⟨e, he, Or.inr rfl⟩
    · cases h
  · rintro ⟨e, he, rfl | rfl⟩
    · exact ⟨e, he, Or.inl rfl⟩
    · exact ⟨e, he, Or.inr (Or.inl rfl)⟩

lemma reach_eq_or_mem {edges : List Edge} {u v : Nat} (h : Reach edges u v) :
    u = v ∨ v ∈ nodesList edges := by
  induction h with
  | refl => exact Or.inl rfl
  | tail h1 hadj ih =>
    right
    rcases hadj with hadj | hadj
    · exact mem_nodesList.mpr ⟨_, hadj, Or.inr rfl⟩
    · exact mem_nodesList.mpr ⟨_, hadj, Or.inl rfl⟩

lemma find?_congr {p q : Nat → Bool} {l : List Nat}
    (h : ∀ x ∈ l, p x = q x) : l.find? p = l.find? q := by
  induction l with
  | nil => rfl
  | cons a l ih =>
    have hpa := h a (List.mem_cons_self ..)
    cases hqa : q a with
    | true =>
      rw [List.find?_cons_of_pos _ (by rw [hpa, hqa]),
        List.find?_cons_of_pos _ hqa]
    | false =>
      rw [List.find?_cons_of_neg _ (by rw [hpa, hqa]; exact Bool.false_ne_true),
        List.find?_cons_of_neg _ (by rw [hqa]; exact Bool.false_ne_true),
        ih (fun x hx => h x (List.mem_cons_of_mem _ hx))]

lemma connB_self (edges : List Edge) (v : Nat) : connB edges v v = true := by
  rw [connB, decide_eq_true_eq, mem_reachSet_iff]
  exact Reach.refl v

lemma repOf_isSome_of_mem {edges : List Edge} {v : Nat}
    (hv : v ∈ nodesList edges) : ∃ r, repOf edges v = some r := by
  rw [repOf]
  cases hfind : (nodesList edges).find? (fun u => connB edges u v) with
  | some r => exact ⟨r, rfl⟩
  | none =>
    exfalso
    have := List.find?_eq_none.mp hfind v hv
    rw [connB_self] at this
    exact this rfl

lemma repOf_spec {edges : List Edge} {v r : Nat}
    (h : repOf edges v = some r) :
    r ∈ nodesList edges ∧ Reach edges r v := by
  refine ⟨List.mem_of_find?_eq_some h, ?_⟩
  have := List.find?_some h
  rw [connB, decide_eq_true_eq, mem_reachSet_iff] at this
  exact this

lemma repOf_none_of_not_mem {edges : List Edge} {v : Nat}
    (hv : v ∉ nodesList edges) : repOf edges v = none := by
  rw [repOf, List.find?_eq_none]
  intro u hu hconn
  rw [connB, decide_eq_true_eq, mem_reachSet_iff] at hconn
  rcases reach_eq_or_mem hconn with rfl | hmem
  · exact hv hu
  · exact hv hmem

lemma repOf_eq_of_reach {edges : List Edge} {u v : Nat}
    (h : Reach edges u v) : repOf edges u = repOf edges v := by
  apply find?_congr
  intro x hx
  rw [connB, connB, decide_eq_decide, mem_reachSet_iff, mem_reachSet_iff]
  exact ⟨fun hxu => reach_trans hxu h, fun hxv => reach_trans hxv (reach_symm h)⟩

lemma reach_of_repOf_eq {edges : List Edge} {u v : Nat}
    (hu : u ∈ nodesList edges) (h : repOf edges u = repOf edges v) :
    Reach edges u v := by
  obtain ⟨r, hr⟩ := repOf_isSome_of_mem hu
  have hr' : repOf edges v = some r := by rw [← h, hr]
  exact reach_trans (reach_symm (repOf_spec hr).2) (repOf_spec hr').2

lemma rep_mem_compReps {edges : List Edge} {v r : Nat}
    (hv : v ∈ nodesList edges) (hr : repOf edges v = some r) :
    r ∈ compReps edges := by
  rw [compReps, mem_dedupFirst]
  exact List.mem_filterMap.mpr ⟨v, hv, hr⟩

lemma clusterOf_ne_none_iff {edges : List Edge} {v : Nat} :
    clusterOf edges v ≠ none ↔ v ∈ nodesList edges := by
  rw [clusterOf]
  constructor
  · intro h
    cases hrep : repOf edges v with
    | none => rw [hrep] at h; exact absurd rfl h
    | some r =>
      rcases repOf_spec hrep with ⟨hrmem, hreach⟩
      rcases reach_eq_or_mem hreach with rfl | hmem
      · exact hrmem
      · exact hmem
  · intro hv
    obtain ⟨r, hr⟩ := repOf_isSome_of_mem hv
    rw [hr]
    exact Option.some_ne_none _

lemma clusterOf_eq_iff_reach {edges : List Edge} {u v : Nat}
    (hu : u ∈ nodesList edges) (hv : v ∈ nodesList edges) :
    clusterOf edges u = clusterOf edges v ↔ Reach edges u v := by
  constructor
  · intro h
    obtain ⟨ru, hru⟩ := repOf_isSome_of_mem hu
    obtain ⟨rv, hrv⟩ := repOf_isSome_of_mem hv
    rw [clusterOf, clusterOf, hru, hrv, Option.map_some', Option.map_some',
      Option.some.injEq] at h
    have hru' := rep_mem_compReps hu hru
    have hrv' := rep_mem_compReps hv hrv
    have heq : ru = rv := (List.indexOf_inj hru' hrv').mp h
    apply reach_of_repOf_eq hu
    rw [hru, hrv, heq]
  · intro h
    rw [clusterOf, clusterOf, repOf_eq_of_reach h]

lemma add_components_rows_getElem? (f : String → Option String)
    (df : DataFrame) (n : Nat) (t : ℚ) (i : Nat) :
    (add_components f df n t).rows[i]? =
      ((pipelineRows f df)[i]?).map
        (fun r =>
          { r with component := clusterOf (pipelineEdges f df n t) i }) := by
  rw [add_components]
  simp only [List.getElem?_map, List.enum_eq_enumFrom, List.getElem?_enumFrom]
  cases (pipelineRows f df)[i]? <;> simp

lemma add_components_components (f : String → Option String) (df : DataFrame)
    (n : Nat) (t : ℚ) :
    (add_components f df n t).rows.map (fun r => r.component) =
      (List.range (pipelineRows f df).length).map
        (clusterOf (pipelineEdges f df n t)) := by
  apply List.ext_getElem?
  intro i
  simp only [List.getElem?_map, add_components_rows_getElem?]
  by_cases h : i < (pipelineRows f df).length
  · rw [List.getElem?_eq_getElem h, List.getElem?_range h]
    simp
  · rw [List.getElem?_eq_none (by omega), List.getElem?_eq_none (by simpa using h)]
    rfl

lemma pipelineRows_length (f : String → Option String) (df : DataFrame) :
    (pipelineRows f df).length = df.rows.length := by
  rw [pipelineRows]
  cases df.hasTextAttachment <;> simp [extract_text]

lemma add_components_length (f : String → Option String) (df : DataFrame)
    (n : Nat) (t : ℚ) :
    (add_components f df n t).rows.length = df.rows.length := by
  rw [add_components]
  simp [pipelineRows_length]

lemma pipelineEdges_nodes_lt {f : String → Option String} {df : DataFrame}
    {n : Nat} {t : ℚ} {v : Nat}
    (hv : v ∈ nodesList (pipelineEdges f df n t)) : v < df.rows.length := by
  rcases mem_nodesList.mp hv with ⟨e, he, hv'⟩
  rw [pipelineEdges] at he
  have hlt := buildEdges_mem_lt he
  rw [List.length_map, pipelineRows_length] at hlt
  rcases hv' with rfl | rfl <;> omega

lemma extract_text_getElem? (f : String → Option String) (rows : List Row)
    (i : Nat) :
    (extract_text f rows)[i]? = (rows[i]?).map (fun r =>
      { r with
        text_attachment :=
          match r.attachment with
          | some a => if a = "" then none else f a
          | none => none }) := by
  rw [extract_text, List.getElem?_map]

lemma add_components_preserves (f : String → Option String) (df : DataFrame)
    (n : Nat) (t : ℚ) (i : Nat) :
    ((add_components f df n t).rows[i]?).map (fun r => r.text) =
        (df.rows[i]?).map (fun r => r.text) ∧
    ((add_components f df n t).rows[i]?).map (fun r => r.attachment) =
        (df.rows[i]?).map (fun r => r.attachment) ∧
    ((add_components f df n t).rows[i]?).map (fun r => r.extra) =
        (df.rows[i]?).map (fun r => r.extra) ∧
    (df.hasTextAttachment = true →
      ((add_components f df n t).rows[i]?).map (fun r => r.text_attachment) =
        (df.rows[i]?).map (fun r => r.text_attachment)) := by
  rw [add_components_rows_getElem?, pipelineRows]
  cases hta : df.hasTextAttachment
  · rw [if_neg (by simp)]
    rw [extract_text_getElem?, List.getElem?_map]
    cases df.rows[i]? <;> simp
  · rw [if_pos rfl]
    rw [List.getElem?_map]
    cases df.rows[i]? <;> simp

lemma crawlAux_eq_range' (m : Nat) :
    ∀ k p, p ≤ m → m - p = k → crawlAux m p = List.range' p (m + 1 - p) := by
  intro k
  induction k with
  | zero =>
    intro p hp hk
    have hpm : p = m := by omega
    subst hpm
    rw [crawlAux.eq_def, dif_pos (by omega),
      show p + 1 - p = 1 by omega, List.range'_one]
  | succ k ih =>
    intro p hp hk
    rw [crawlAux.eq_def, dif_neg (by omega), ih (p + 1) (by omega) (by omega),
      show m + 1 - p = (m + 1 - (p + 1)) + 1 by omega, List.range'_succ]

lemma crawlPages_eq {m : Nat} (h : 1 ≤ m) :
    crawlPages m = List.range' 1 m := by
  rw [crawlPages, crawlAux_eq_range' m (m - 1) 1 h (by omega)]
  congr 1

lemma crawlPages_two : crawlPages 2 = [1, 2] := by
  rw [crawlPages_eq (by omega)]
  rfl

lemma foldl_append_filter (pages : Nat → List String) (done : List String) :
    ∀ (l : List Nat) (acc : List String),
      l.foldl (fun resp p => resp ++ (pages p).filter
        (fun u => decide (¬ u ∈ done))) acc =
      acc ++ (l.flatMap pages).filter (fun u => decide (¬ u ∈ done)) := by
  intro l
  induction l with
  | nil =>
    intro acc
    simp
  | cons p l ih =>
    intro acc
    rw [List.foldl_cons, ih, List.flatMap_cons, List.filter_append,
      List.append_assoc]

lemma collectResponses_eq (pages : Nat → List String) (m : Nat)
    (done acc : List String) :
    collectResponses pages m done acc =
      acc ++ ((crawlPages m).flatMap pages).filter
        (fun u => decide (¬ u ∈ done)) := by
  rw [collectResponses, foldl_append_filter]

lemma collect_fresh (pages : Nat → List String) (m : Nat) :
    collectResponses pages m [] [] = (crawlPages m).flatMap pages := by
  rw [collectResponses_eq]
  simp

lemma collect_resume (pages : Nat → List String) (m : Nat) :
    collectResponses pages m (collectResponses pages m [] [])
        (collectResponses pages m [] []) =
      collectResponses pages m [] [] := by
  rw [collectResponses_eq, collect_fresh]
  have hfil : ((crawlPages m).flatMap pages).filter
      (fun u => decide (¬ u ∈ (crawlPages m).flatMap pages)) = [] := by
    rw [List.filter_eq_nil_iff]
    intro u hu
    simp [hu]
  rw [hfil, List.append_nil]

/-- Claim C1 counterexample: a record with no shingles (no text at all) is
not assigned any cluster id by `add_components`: its `component` stays
`None` instead of forming a singleton cluster, because only edge endpoints
are added to the networkx graph. -/
theorem claimC1_counterexample :
    (add_components (fun _ => none)
        ⟨[⟨none, none, none, none, []⟩], true⟩ 5 (mkRat 3 10)).rows.map
      (fun r => r.component) = [none] := by decide

/-- Claim C1 (amended): after `add_components`, a record's `component` is
non-`None` exactly when the record is an endpoint of some threshold-passing
edge; on those records the ids realise the connected-component partition:
two edge-incident records share a `component` value iff they are connected
by a path of edges.  Records incident to no edge — among them every record
with no shingles — keep `component = None` instead of forming singleton
clusters. -/
theorem claimC1_partition (f : String → Option String) (df : DataFrame)
    (n : Nat) (t : ℚ) :
    (∀ i, i < df.rows.length →
      (((add_components f df n t).rows.map (fun r => r.component)).getD i none
          ≠ none ↔ i ∈ nodesList (pipelineEdges f df n t))) ∧
    (∀ i j, i ∈ nodesList (pipelineEdges f df n t) →
      j ∈ nodesList (pipelineEdges f df n t) →
      (((add_components f df n t).rows.map (fun r => r.component)).getD i none
          = ((add_components f df n t).rows.map
              (fun r => r.component)).getD j none ↔
        Reach (pipelineEdges f df n t) i j)) := by
  have hcomp : ∀ i, i < df.rows.length →
      ((add_components f df n t).rows.map (fun r => r.component)).getD i none =
        clusterOf (pipelineEdges f df n t) i := by
    intro i hi
    rw [add_components_components, List.getD_eq_getElem?_getD,
      List.getElem?_map,
      List.getElem?_range (by rw [pipelineRows_length]; exact hi)]
    rfl
  constructor
  · intro i hi
    rw [hcomp i hi]
    exact clusterOf_ne_none_iff
  · intro i j hi hj
    rw [hcomp i (pipelineEdges_nodes_lt hi), hcomp j (pipelineEdges_nodes_lt hj)]
    exact clusterOf_eq_iff_reach hi hj

/-- Witness for claim C1: on a concrete frame whose two rows carry the same
inline text, equality of the assigned cluster ids yields connectivity. -/
theorem claimC1_partition_witness :
    Reach (pipelineEdges (fun _ => none)
      ⟨[⟨some "a b", none, none, none, []⟩,
        ⟨some "a b", none, none, none, []⟩], true⟩ 1 (mkRat 1 2)) 0 1 :=
  ((claimC1_partition (fun _ => none)
      ⟨[⟨some "a b", none, none, none, []⟩,
        ⟨some "a b", none, none, none, []⟩], true⟩ 1 (mkRat 1 2)).2 0 1
    (by decide) (by decide)).mp (by decide)

/-- Claim C2 counterexample: a present-but-empty attachment text does not
fall back to the inline text: with inline text "a b" the claim demands the
shingles of "a b", but the code returns `None`. -/
theorem claimC2_counterexample :
    get_ngrams (some "a b") (some "") 1 = none ∧
    get_ngrams (some "a b") none 1 = some ({["a"], ["b"]} : Finset NGram) ∧
    get_ngrams (some "a b") (some "") 1 ≠ get_ngrams (some "a b") none 1 := by
  decide

/-- Claim C2 (amended): the text used for shingling is the attachment text
whenever the attachment text is present — even when it is present but
empty, in which case the result is `None` with no fallback to the inline
text; only when the attachment text is absent is the inline text used
(when present and non-empty), with `None` otherwise. -/
theorem claimC2_canonical_text (text ta : Option String) (n : Nat) :
    (∀ a, ta = some a → a ≠ "" →
      get_ngrams text ta n = some (ngramSet (pySplit a) n)) ∧
    (ta = some "" → get_ngrams text ta n = none) ∧
    (ta = none → ∀ s, text = some s → s ≠ "" →
      get_ngrams text ta n = some (ngramSet (pySplit s) n)) ∧
    (ta = none → text = none ∨ text = some "" →
      get_ngrams text ta n = none) := by
  refine ⟨?_, ?_, ?_, ?_⟩
  · rintro a rfl ha
    simp [get_ngrams, ha]
  · rintro rfl
    simp [get_ngrams]
  · rintro rfl s rfl hs
    simp [get_ngrams, hs]
  · rintro rfl (rfl | rfl) <;> simp [get_ngrams]

/-- Witness for claim C2: concrete evaluation of the no-fallback case. -/
theorem claimC2_witness : get_ngrams (some "x y") (some "") 3 = none :=
  (claimC2_canonical_text (some "x y") (some "") 3).2.1 rfl

/-- Claim C3 counterexample: a text with fewer tokens than `n` yields the
empty set of shingles, not `None` as the claim states. -/
theorem claimC3_counterexample :
    get_ngrams (some "a b") none 5 = some (∅ : Finset NGram) ∧
    get_ngrams (some "a b") none 5 ≠ none := by decide

/-- Claim C3 (amended): for `n ≥ 1`, `get_ngrams` returns `None` exactly
when the selected text is absent or empty; a non-empty text always yields
`some` set — the set of all contiguous token n-tuples over the
whitespace-split tokens (sliding window, stride 1) — which is the *empty
set* (not `None`) when fewer than `n` tokens are present. -/
theorem claimC3_shingles (text : Option String) (n : Nat) (hn : 1 ≤ n) :
    (get_ngrams text none n = none ↔ text = none ∨ text = some "") ∧
    (∀ s, text = some s → s ≠ "" →
      get_ngrams text none n = some (ngramSet (pySplit s) n) ∧
      (∀ w, w ∈ ngramSet (pySplit s) n ↔
        ∃ i, i + n ≤ (pySplit s).length ∧ w = ((pySplit s).drop i).take n) ∧
      ((pySplit s).length < n → ngramSet (pySplit s) n = ∅)) := by
  constructor
  · cases text with
    | none => simp [get_ngrams]
    | some s =>
      by_cases hs : s = ""
      · subst hs
        simp [get_ngrams]
      · simp [get_ngrams, hs]
  · rintro s rfl hs
    exact ⟨by simp [get_ngrams, hs], fun w => mem_ngramSet hn,
      ngramSet_eq_empty_of_short hn⟩

/-- Witness for claim C3: "a b" with `n = 5` yields `some ∅`. -/
theorem claimC3_witness :
    get_ngrams (some "a b") none 5 = some (ngramSet (pySplit "a b") 5) ∧
    ngramSet (pySplit "a b") 5 = ∅ :=
  ⟨((claimC3_shingles (some "a b") 5 (by decide)).2 "a b" rfl (by decide)).1,
   ((claimC3_shingles (some "a b") 5 (by decide)).2 "a b" rfl
      (by decide)).2.2 (by decide)⟩

/-- Claim C4 counterexample: two records with disjoint non-empty shingle
sets have similarity exactly 0, equal to threshold 0, yet no edge is
produced (Python's `if not similarity` drops similarity `0.0`). -/
theorem claimC4_counterexample :
    jaccard_similarity (some ({["a"]} : Finset NGram)) (some {["b"]}) =
        some 0 ∧
    buildEdges [some ({["a"]} : Finset NGram), some {["b"]}] 0 = [] := by
  decide

/-- Claim C4 (amended): the produced edge list consists exactly of the
pairs `(i, j)` with `i < j < N` whose Jaccard similarity is defined,
*non-zero*, and at least the threshold — the falsy test
`if not similarity: continue` additionally drops pairs whose similarity is
exactly 0, so at threshold 0 a zero-similarity pair yields no edge; each
unordered pair appears at most once in the list. -/
theorem claimC4_edges (ngs : List (Option (Finset NGram))) (t : ℚ) :
    (∀ i j, (i, j) ∈ buildEdges ngs t ↔
      i < j ∧ j < ngs.length ∧
      ∃ q, jaccard_similarity (ngs.getD i none) (ngs.getD j none) = some q ∧
        q ≠ 0 ∧ t ≤ q) ∧
    (buildEdges ngs t).Nodup := by
  refine ⟨?_, buildEdges_nodup ngs t⟩
  intro i j
  rw [mem_buildEdges, edgeAt_true_iff]
  tauto

/-- Claim C5 counterexample: within a single run no deduplication happens:
a source listing the same url on two pages stores it twice. -/
theorem claimC5_counterexample :
    collectResponses (fun _ => ["x"]) 2 [] [] = ["x", "x"] ∧
    ¬ (collectResponses (fun _ => ["x"]) 2 [] []).Nodup := by
  rw [collectResponses_eq, crawlPages_two]
  decide

/-- Claim C5 (amended): for every fetch source and page bound, a completed
run from empty prior state followed by a restart over the same source —
the stored records reloaded as both the prior list and the `done` filter —
reproduces exactly the stored record list of the single uninterrupted run,
unconditionally, duplicate listings included; but within a run no
deduplication against freshly collected records is performed, so the
accumulated list is duplicate-free only when the fetch source lists each
identifier at most once across the crawled pages. -/
theorem claimC5_resume (pages : Nat → List String) (m : Nat) :
    collectResponses pages m (collectResponses pages m [] [])
        (collectResponses pages m [] []) =
      collectResponses pages m [] [] ∧
    (((crawlPages m).flatMap pages).Nodup →
      (collectResponses pages m [] []).Nodup) := by
  refine ⟨collect_resume pages m, ?_⟩
  intro hdist
  rw [collect_fresh]
  exact hdist

/-- Witness for claim C5: a two-page source with distinct urls yields a
duplicate-free store. -/
theorem claimC5_witness :
    (collectResponses (fun p => if p = 1 then ["a"] else ["b"]) 2 [] []).Nodup :=
  (claimC5_resume (fun p => if p = 1 then ["a"] else ["b"]) 2).2
    (by rw [crawlPages_two]; decide)

/-- Claim C6 counterexample: no configuration validation exists; with
`threshold = 2` (outside `[0,1]`) the clustering pass runs to completion
and produces a normal dataframe (every `component` left `None`) instead of
rejecting the configuration before proceeding. -/
theorem claimC6_counterexample :
    (add_components (fun _ => none)
        ⟨[⟨some "a b c d e", none, none, none, []⟩,
          ⟨some "a b c d e", none, none, none, []⟩], true⟩ 5 2).rows.map
      (fun r => r.component) = [none, none] := by decide

/-- Claim C6 (amended): the code never validates `n` or `threshold`:
`add_components` is a total function and, for any threshold above 1
(outside `[0,1]`), silently produces an edgeless graph and leaves every
record's `component` as `None`, rather than failing at startup. -/
theorem claimC6_no_validation (f : String → Option String) (df : DataFrame)
    (n : Nat) (t : ℚ) (ht : 1 < t) :
    pipelineEdges f df n t = [] ∧
    (add_components f df n t).rows.map (fun r => r.component) =
      df.rows.map (fun _ => none) := by
  have hedges : pipelineEdges f df n t = [] := by
    rw [pipelineEdges, List.eq_nil_iff_forall_not_mem]
    intro e he
    obtain ⟨i, j⟩ := e
    rcases mem_buildEdges.mp he with ⟨-, -, hat⟩
    rcases edgeAt_true_iff.mp hat with ⟨q, hq, -, htq⟩
    have := (jaccard_range hq).2
    linarith
  refine ⟨hedges, ?_⟩
  rw [add_components_components, hedges]
  apply List.ext_getElem?
  intro i
  simp only [List.getElem?_map]
  by_cases h : i < df.rows.length
  · rw [List.getElem?_range (by rw [pipelineRows_length]; exact h),
      List.getElem?_eq_getElem h]
    rfl
  · rw [List.getElem?_eq_none (by rw [List.length_range, pipelineRows_length]; omega),
      List.getElem?_eq_none (by omega)]
    rfl

/-- Witness for claim C6: concrete out-of-range threshold. -/
theorem claimC6_witness :
    pipelineEdges (fun _ => none) ⟨[], true⟩ 5 2 = [] :=
  (claimC6_no_validation (fun _ => none) ⟨[], true⟩ 5 2 (by decide)).1

/-- Claim C7: `jaccard_similarity` is total: it returns `None` whenever
either input is `None` or empty (so no division by zero can occur — the
union-size-zero case is unreachable past the falsy guard), and otherwise
returns exactly `|a ∩ b| / |a ∪ b|`, a rational in `[0, 1]`. -/
theorem claimC7_jaccard_total (a b : Option (Finset NGram)) :
    ((a = none ∨ b = none ∨ a = some ∅ ∨ b = some ∅) →
      jaccard_similarity a b = none) ∧
    (∀ s t, a = some s → b = some t → s ≠ ∅ → t ≠ ∅ →
      jaccard_similarity a b =
          some (((s ∩ t).card : ℚ) / ((s ∪ t).card : ℚ)) ∧
        (0 : ℚ) ≤ ((s ∩ t).card : ℚ) / ((s ∪ t).card : ℚ) ∧
        ((s ∩ t).card : ℚ) / ((s ∪ t).card : ℚ) ≤ 1) := by
  refine ⟨jaccard_none_of_degenerate, ?_⟩
  rintro s t rfl rfl hs ht
  have h : jaccard_similarity (some s) (some t) =
      some (((s ∩ t).card : ℚ) / ((s ∪ t).card : ℚ)) :=
    jaccard_some_iff.mpr ⟨s, t, rfl, rfl, hs, ht, rfl⟩
  exact ⟨h, (jaccard_range h).1, (jaccard_range h).2⟩

/-- Witness for claim C7: concrete non-degenerate evaluation. -/
theorem claimC7_witness :
    (0 : ℚ) ≤ ((({["a"], ["b"]} : Finset NGram) ∩ {["a"]}).card : ℚ) /
      ((({["a"], ["b"]} : Finset NGram) ∪ {["a"]}).card : ℚ) :=
  ((claimC7_jaccard_total (some {["a"], ["b"]}) (some {["a"]})).2
    {["a"], ["b"]} {["a"]} rfl rfl (by decide) (by decide)).2.1

/-- Claim C8: the response crawl determines the page bound from the first
fetched page and treats exceeding it as the normal stop signal: for every
bound `m ≥ 1` (a pagination maximum names at least page 1) the loop
terminates after fetching exactly pages `1, 2, ..., m` in order. -/
theorem claimC8_pagination (m : Nat) (h : 1 ≤ m) :
    crawlPages m = List.range' 1 m :=
  crawlPages_eq h

/-- Witness for claim C8: bound 3 fetches pages 1, 2, 3. -/
theorem claimC8_witness : crawlPages 3 = [1, 2, 3] :=
  (claimC8_pagination 3 (by omega)).trans rfl

/-- Claim C9: threshold monotonicity — for a fixed shingle-set sequence,
every edge produced at a higher threshold is also produced at any lower
threshold (the edge set at `t1 ≤ t2` is a superset of the one at `t2`). -/
theorem claimC9_monotone (ngs : List (Option (Finset NGram))) (t1 t2 : ℚ)
    (h : t1 ≤ t2) :
    ∀ e, e ∈ buildEdges ngs t2 → e ∈ buildEdges ngs t1 := by
  intro e he
  obtain ⟨i, j⟩ := e
  rcases mem_buildEdges.mp he with ⟨hj, hij, hat⟩
  rcases edgeAt_true_iff.mp hat with ⟨q, hq, hq0, htq⟩
  exact mem_buildEdges.mpr ⟨hj, hij,
    edgeAt_true_iff.mpr ⟨q, hq, hq0, le_trans h htq⟩⟩

/-- Witness for claim C9: the edge surviving threshold 3/10 also exists at
threshold 1/4. -/
theorem claimC9_witness :
    (0, 1) ∈ buildEdges [some ({["a"]} : Finset NGram), some {["a"]}]
      (mkRat 1 4) :=
  claimC9_monotone [some {["a"]}, some {["a"]}] (mkRat 1 4) (mkRat 3 10)
    (by decide) (0, 1) (by decide)

/-- Claim C10: frame effect of `add_components`: the row count and order
are preserved, every pre-existing column value (`text`, `attachment`, the
opaque extra columns) is unchanged, and `text_attachment` is unchanged
whenever that column was already present; the pass only writes `component`
(always) and `text_attachment` (only when the column was absent). -/
theorem claimC10_frame (f : String → Option String) (df : DataFrame)
    (n : Nat) (t : ℚ) :
    (add_components f df n t).rows.length = df.rows.length ∧
    (∀ i : Nat,
      ((add_components f df n t).rows[i]?).map (fun r => r.text) =
          (df.rows[i]?).map (fun r => r.text) ∧
      ((add_components f df n t).rows[i]?).map (fun r => r.attachment) =
          (df.rows[i]?).map (fun r => r.attachment) ∧
      ((add_components f df n t).rows[i]?).map (fun r => r.extra) =
          (df.rows[i]?).map (fun r => r.extra)) ∧
    (df.hasTextAttachment = true → ∀ i : Nat,
      ((add_components f df n t).rows[i]?).map (fun r => r.text_attachment) =
        (df.rows[i]?).map (fun r => r.text_attachment)) := by
  refine ⟨add_components_length f df n t, ?_, ?_⟩
  · intro i
    have h := add_components_preserves f df n t i
    exact ⟨h.1, h.2.1, h.2.2.1⟩
  · intro hta i
    exact (add_components_preserves f df n t i).2.2.2 hta

/-- Witness for claim C10: a concrete frame with the `text_attachment`
column present keeps its value. -/
theorem claimC10_witness :
    ((add_components (fun _ => none)
        ⟨[⟨some "a", some "7", some "t", some 9, [("k", "v")]⟩], true⟩ 2
        (mkRat 3 10)).rows[0]?).map (fun r => r.text_attachment) =
      some (some "t") :=
  ((claimC10_frame (fun _ => none)
      ⟨[⟨some "a", some "7", some "t", some 9, [("k", "v")]⟩], true⟩ 2
      (mkRat 3 10)).2.2 rfl 0).trans (by decide)

